import Mathlib

/-!
# Verification of the feature dependency forest of `create-cinnamon-project`

Shallow embedding of `src/struct/generic/feature_tree.mts` and the concrete
feature catalog of `src/struct/project.mts`.

Modelling conventions:
* A JS `FeatureNode` is the inductive `FeatureNode`: metadata, an ordered
  list of children, and the mutable `enabled` flag.
* A `FeatureForest` object is represented by its only field, the `_topology`
  list of root nodes.  The constructor's validation is `FeatureForest.create`,
  which returns the topology on success (`new FeatureForest(...)`) and
  `Except.error` where the JS constructor throws.
* JS exceptions are modelled with `Except String`; a function that can throw
  returns `Except String α`.  `undefined` for an absent node is `Option`.
* The in-place mutation `findNodeInTopology(feature)!.enabled = enabled` is
  modelled by state passing: `FeatureForest.set` returns the updated topology
  (mirroring the search order of `findNodeInTopology` to locate the node that
  the JS code would mutate through its reference), or an error where the JS
  assignment to `undefined` would throw a `TypeError`.
* JS `===` on identifiers and the reference equality used by
  `Array.prototype.includes` on nodes are modelled by decidable (structural)
  equality; within a forest whose identifiers are globally unique the two
  coincide, since no two distinct nodes of such a forest are equal.
* `level` arguments are JS numbers used as integers; they are modelled as
  `Int` (negative levels are exercised by the code's recursion).
-/

/-- `FeatureNodeMetadata` from `feature_tree.mts`: id, name, description. -/
structure FeatureNodeMetadata (T : Type) where
  id : T
  name : String
  description : String
deriving DecidableEq

/-- `FeatureNode` from `feature_tree.mts`: metadata, children, enabled flag. -/
inductive FeatureNode (T : Type) : Type where
  | mk (metadata : FeatureNodeMetadata T) (children : List (FeatureNode T))
       (enabled : Bool)

/-- The `metadata` field of a node. -/
def FeatureNode.metadata : FeatureNode T → FeatureNodeMetadata T
  | .mk m _ _ => m

/-- The `children` getter of a node (the JS getter returns a copy of the
array; the elements are the same, so it is the list itself here). -/
def FeatureNode.children : FeatureNode T → List (FeatureNode T)
  | .mk _ cs _ => cs

/-- The mutable `enabled` field of a node. -/
def FeatureNode.enabled : FeatureNode T → Bool
  | .mk _ _ e => e

mutual

/-- Decidable equality on nodes (used to model the reference equality of
`Array.prototype.includes` in `getParentOf`). -/
def FeatureNode.eqDec [DecidableEq T] : (a b : FeatureNode T) → Decidable (a = b)
  | .mk m1 c1 e1, .mk m2 c2 e2 =>
    match inferInstanceAs (Decidable (m1 = m2)) with
    | isTrue hm =>
      match Bool.decEq e1 e2 with
      | isTrue he =>
        match FeatureNode.eqDecList c1 c2 with
        | isTrue hc => isTrue (by rw [hm, he, hc])
        | isFalse hc => isFalse (by intro h; injection h; contradiction)
      | isFalse he => isFalse (by intro h; injection h; contradiction)
    | isFalse hm => isFalse (by intro h; injection h; contradiction)

/-- Decidable equality on lists of nodes. -/
def FeatureNode.eqDecList [DecidableEq T] : (a b : List (FeatureNode T)) → Decidable (a = b)
  | [], [] => isTrue rfl
  | [], _ :: _ => isFalse (by intro h; injection h)
  | _ :: _, [] => isFalse (by intro h; injection h)
  | a :: as, b :: bs =>
    match FeatureNode.eqDec a b with
    | isTrue h1 =>
      match FeatureNode.eqDecList as bs with
      | isTrue h2 => isTrue (by rw [h1, h2])
      | isFalse h2 => isFalse (by intro h; injection h; contradiction)
    | isFalse h1 => isFalse (by intro h; injection h; contradiction)

end

instance [DecidableEq T] : DecidableEq (FeatureNode T) := FeatureNode.eqDec

mutual

/-- Size of a node (number of nodes of its subtree); the termination measure
for the level walk and the breadth-first collection. -/
def FeatureNode.size : FeatureNode T → Nat
  | .mk _ cs _ => 1 + FeatureNode.sizeList cs

/-- Total size of a list of nodes. -/
def FeatureNode.sizeList : List (FeatureNode T) → Nat
  | [] => 0
  | n :: rest => n.size + FeatureNode.sizeList rest

end

mutual

/-- `FeatureNode.checkChildren` from `feature_tree.mts`:
first throw if two siblings among `this._children` share an id, then walk the
children in order (`FeatureNode.checkChildrenEach`). -/
def FeatureNode.checkChildren [DecidableEq T] : FeatureNode T → List T → Except String Unit
  | .mk _ children _, parentIds =>
    if (children.map fun child => child.metadata.id).Nodup then
      FeatureNode.checkChildrenEach children parentIds
    else
      Except.error "Duplicate feature IDs found (each one must be registered at most once)."

/-- The `for (const child of this._children)` loop of `checkChildren`: throw
if the child's id occurs in `parentIds`, then recurse into the child with
`[...parentIds, child.metadata.id]`. -/
def FeatureNode.checkChildrenEach [DecidableEq T] : List (FeatureNode T) → List T → Except String Unit
  | [], _ => Except.ok ()
  | child :: rest, parentIds =>
    if parentIds.contains child.metadata.id then
      Except.error "Duplicate feature ID (each one must be registered at most once)."
    else
      match FeatureNode.checkChildren child (parentIds ++ [child.metadata.id]) with
      | Except.ok _ => FeatureNode.checkChildrenEach rest parentIds
      | Except.error e => Except.error e

end

/-- The `for (const node of this._topology)` loop of the `FeatureForest`
constructor: each root's `checkChildren` is invoked with the ids of *all*
roots as the initial ancestor set. -/
def FeatureForest.checkRoots [DecidableEq T] : List (FeatureNode T) → List T → Except String Unit
  | [], _ => Except.ok ()
  | node :: rest, rootIds =>
    match node.checkChildren rootIds with
    | Except.ok _ => FeatureForest.checkRoots rest rootIds
    | Except.error e => Except.error e

/-- The `FeatureForest` constructor: reject duplicate ids among the roots,
then run `checkChildren` on every root; on success the forest (its
`_topology`) is usable. -/
def FeatureForest.create [DecidableEq T] (topology : List (FeatureNode T)) :
    Except String (List (FeatureNode T)) :=
  if (topology.map fun child => child.metadata.id).Nodup then
    match FeatureForest.checkRoots topology (topology.map fun node => node.metadata.id) with
    | Except.ok _ => Except.ok topology
    | Except.error e => Except.error e
  else
    Except.error "Duplicate feature IDs found (each one must be registered at most once)."

mutual

/-- One iteration of the `for (const node of this._topology)` loop of
`findNodeInTopology`: `new FeatureForest(node.children).findNodeInTopology(id)` —
the sub-forest constructor's validation (which can throw) followed by the
sub-forest's lookup. -/
def FeatureForest.findInNode [DecidableEq T] :
    FeatureNode T → T → Except String (Option (FeatureNode T))
  | .mk _ cs _, id =>
    match FeatureForest.create cs with
    | Except.error e => Except.error e
    | Except.ok _ =>
      match cs.find? (fun node => node.metadata.id == id) with
      | some desired => Except.ok (some desired)
      | none => FeatureForest.findNodeInChildren cs id

/-- The `for (const node of this._topology)` loop of `findNodeInTopology`:
try each root's sub-forest in order, returning the first hit. -/
def FeatureForest.findNodeInChildren [DecidableEq T] :
    List (FeatureNode T) → T → Except String (Option (FeatureNode T))
  | [], _ => Except.ok none
  | node :: rest, id =>
    match FeatureForest.findInNode node id with
    | Except.error e => Except.error e
    | Except.ok (some result) => Except.ok (some result)
    | Except.ok none => FeatureForest.findNodeInChildren rest id

end

/-- `FeatureForest.findNodeInTopology`: first `this._topology.find` by id,
otherwise search each root's children (`findNodeInChildren`). -/
def FeatureForest.findNodeInTopology [DecidableEq T]
    (topology : List (FeatureNode T)) (id : T) : Except String (Option (FeatureNode T)) :=
  match topology.find? (fun node => node.metadata.id == id) with
  | some desired => Except.ok (some desired)
  | none => FeatureForest.findNodeInChildren topology id

/-- `FeatureForest.get`: `findNodeInTopology(feature)?.enabled ?? false`.
The lookup itself can throw (sub-forest validation); otherwise the stored
flag of the found node, or `false` when the id is absent. -/
def FeatureForest.get [DecidableEq T] (topology : List (FeatureNode T)) (feature : T) :
    Except String Bool :=
  match FeatureForest.findNodeInTopology topology feature with
  | Except.error e => Except.error e
  | Except.ok (some node) => Except.ok node.enabled
  | Except.ok none => Except.ok false

/-- `FeatureForest.getParentOf`: resolve the feature's node (the JS `!` has
no runtime effect), then `this._topology.find(cn => cn.children.includes(node))`;
reading `.metadata` of the `undefined` result of a failed `find` throws a
`TypeError` at run time. -/
def FeatureForest.getParentOf [DecidableEq T] (topology : List (FeatureNode T)) (feature : T) :
    Except String (FeatureNodeMetadata T) :=
  match FeatureForest.findNodeInTopology topology feature with
  | Except.error e => Except.error e
  | Except.ok node =>
    match topology.find? (fun currentNode =>
        match node with
        | some n => currentNode.children.contains n
        | none => false) with
    | some parent => Except.ok parent.metadata
    | none => Except.error "TypeError: Cannot read properties of undefined (reading 'metadata')."

/-- `FeatureForest._computeFeaturesForLevel`: if `currentLevel` is the
requested level, the metadata of the candidate nodes; otherwise advance to
the children of the enabled candidates, short-circuiting to `[]` when that
next candidate set is empty. -/
def FeatureForest.computeFeaturesForLevel [DecidableEq T] (level : Int)
    (nodes : List (FeatureNode T)) (currentLevel : Int) :
    List (FeatureNodeMetadata T) :=
  if currentLevel = level then nodes.map fun node => node.metadata
  else
    let nextNodes := (nodes.filter fun node => node.enabled).flatMap fun node => node.children
    if _h : nextNodes.length = 0 then []
    else FeatureForest.computeFeaturesForLevel level nextNodes (currentLevel + 1)
termination_by FeatureNode.sizeList nodes
decreasing_by
  have key : ∀ l : List (FeatureNode T),
      FeatureNode.sizeList (l.flatMap fun node => node.children) + l.length =
        FeatureNode.sizeList l := by
    intro l
    induction l with
    | nil => rfl
    | cons n rest ih =>
      cases n with
      | mk m cs e =>
        have hsplit : ((FeatureNode.mk m cs e :: rest).flatMap fun node => node.children) =
            cs ++ rest.flatMap fun node => node.children := rfl
        have happ : ∀ a b : List (FeatureNode T),
            FeatureNode.sizeList (a ++ b) = FeatureNode.sizeList a + FeatureNode.sizeList b := by
          intro a b
          induction a with
          | nil => show FeatureNode.sizeList b = 0 + FeatureNode.sizeList b; omega
          | cons x xs ihx =>
            show x.size + FeatureNode.sizeList (xs ++ b) = x.size + FeatureNode.sizeList xs + FeatureNode.sizeList b
            rw [ihx]
            omega
        rw [hsplit, happ]
        have hsz : FeatureNode.sizeList (FeatureNode.mk m cs e :: rest) =
            1 + FeatureNode.sizeList cs + FeatureNode.sizeList rest := by
          show (FeatureNode.mk m cs e).size + FeatureNode.sizeList rest =
            1 + FeatureNode.sizeList cs + FeatureNode.sizeList rest
          rfl
        rw [hsz, List.length_cons]
        omega
  have hsub : ∀ a b : List (FeatureNode T), a.Sublist b →
      FeatureNode.sizeList a ≤ FeatureNode.sizeList b := by
    intro a b h
    induction h with
    | slnil => exact Nat.le_refl _
    | cons n _ ih =>
      rename_i l1 l2 _
      show FeatureNode.sizeList l1 ≤ n.size + FeatureNode.sizeList l2
      omega
    | cons₂ n _ ih =>
      rename_i l1 l2 _
      show n.size + FeatureNode.sizeList l1 ≤ n.size + FeatureNode.sizeList l2
      omega
  have h1 := hsub _ _ (List.filter_sublist (l := nodes) (p := fun node => node.enabled))
  have h2 := key (nodes.filter fun node => node.enabled)
  have h3 : (nodes.filter fun node => node.enabled).length ≠ 0 := by
    intro hlen
    apply _h
    have hnil : nodes.filter (fun node => node.enabled) = [] := List.length_eq_zero.mp hlen
    show ((nodes.filter fun node => node.enabled).flatMap fun node => node.children).length = 0
    rw [hnil]
    rfl
  omega

/-- `FeatureForest.getFeaturesForLevel`: level `0` returns every root's
metadata unconditionally; any other level starts the walk at the topology
with `currentLevel = 0`. -/
def FeatureForest.getFeaturesForLevel [DecidableEq T] (topology : List (FeatureNode T))
    (level : Int) : List (FeatureNodeMetadata T) :=
  if level = 0 then topology.map fun node => node.metadata
  else FeatureForest.computeFeaturesForLevel level topology 0

/-- The `while (search.length > 0)` loop of `getAllEnabled`: collect the
frontier's metadata, then move to the enabled children of the frontier. -/
def FeatureForest.getAllEnabledLoop (search : List (FeatureNode T)) :
    List (FeatureNodeMetadata T) :=
  if _h : 0 < search.length then
    (search.map fun node => node.metadata) ++
      FeatureForest.getAllEnabledLoop
        (search.flatMap fun node => node.children.filter fun child => child.enabled)
  else []
termination_by FeatureNode.sizeList search
decreasing_by
  have key : ∀ l : List (FeatureNode T),
      FeatureNode.sizeList (l.flatMap fun node => node.children.filter fun child => child.enabled) +
          l.length ≤ FeatureNode.sizeList l := by
    intro l
    induction l with
    | nil => exact Nat.le_refl _
    | cons n rest ih =>
      cases n with
      | mk m cs e =>
        have hsplit : ((FeatureNode.mk m cs e :: rest).flatMap fun node =>
            node.children.filter fun child => child.enabled) =
            (cs.filter fun child => child.enabled) ++
              rest.flatMap (fun node => node.children.filter fun child => child.enabled) := rfl
        have happ : ∀ a b : List (FeatureNode T),
            FeatureNode.sizeList (a ++ b) = FeatureNode.sizeList a + FeatureNode.sizeList b := by
          intro a b
          induction a with
          | nil => show FeatureNode.sizeList b = 0 + FeatureNode.sizeList b; omega
          | cons x xs ihx =>
            show x.size + FeatureNode.sizeList (xs ++ b) = x.size + FeatureNode.sizeList xs + FeatureNode.sizeList b
            rw [ihx]
            omega
        have hsub : ∀ a b : List (FeatureNode T), a.Sublist b →
            FeatureNode.sizeList a ≤ FeatureNode.sizeList b := by
          intro a b h
          induction h with
          | slnil => exact Nat.le_refl _
          | cons x _ ihx =>
            rename_i l1 l2 _
            show FeatureNode.sizeList l1 ≤ x.size + FeatureNode.sizeList l2
            omega
          | cons₂ x _ ihx =>
            rename_i l1 l2 _
            show x.size + FeatureNode.sizeList l1 ≤ x.size + FeatureNode.sizeList l2
            omega
        have hfil := hsub _ _ (List.filter_sublist (l := cs) (p := fun child => child.enabled))
        have hsz : FeatureNode.sizeList (FeatureNode.mk m cs e :: rest) =
            1 + FeatureNode.sizeList cs + FeatureNode.sizeList rest := by
          show (FeatureNode.mk m cs e).size + FeatureNode.sizeList rest =
            1 + FeatureNode.sizeList cs + FeatureNode.sizeList rest
          rfl
        rw [hsplit, happ, hsz, List.length_cons]
        omega
  have h2 := key search
  omega

/-- `FeatureForest.getAllEnabled`: start from the enabled roots and run the
breadth-first collection loop. -/
def FeatureForest.getAllEnabled (topology : List (FeatureNode T)) :
    List (FeatureNodeMetadata T) :=
  FeatureForest.getAllEnabledLoop (topology.filter fun node => node.enabled)

/-- Flag assignment on the first node of a sibling list whose id matches
(the `topology.find` position whose node the JS assignment mutates). -/
def FeatureForest.setFirstHere [DecidableEq T] :
    List (FeatureNode T) → T → Bool → List (FeatureNode T)
  | [], _, _ => []
  | .mk m cs e :: rest, id, enabled =>
    if m.id == id then FeatureNode.mk m cs enabled :: rest
    else FeatureNode.mk m cs e :: FeatureForest.setFirstHere rest id enabled

mutual

/-- The mutation model inside one node: locate the id in the node's children
sub-forest exactly as `findInNode` does (validation included) and rebuild the
node with the updated children; `ok none` when the id is not in this subtree. -/
def FeatureForest.setInNode [DecidableEq T] :
    FeatureNode T → T → Bool → Except String (Option (FeatureNode T))
  | .mk m cs e, id, enabled =>
    match FeatureForest.create cs with
    | Except.error err => Except.error err
    | Except.ok _ =>
      match cs.find? (fun node => node.metadata.id == id) with
      | some _ => Except.ok (some (FeatureNode.mk m (FeatureForest.setFirstHere cs id enabled) e))
      | none =>
        match FeatureForest.setInChildren cs id enabled with
        | Except.error err => Except.error err
        | Except.ok (some cs2) => Except.ok (some (FeatureNode.mk m cs2 e))
        | Except.ok none => Except.ok none

/-- The mutation model over a sibling list: rebuild the first subtree that
contains the id, keeping the other siblings as they are. -/
def FeatureForest.setInChildren [DecidableEq T] :
    List (FeatureNode T) → T → Bool → Except String (Option (List (FeatureNode T)))
  | [], _, _ => Except.ok none
  | node :: rest, id, enabled =>
    match FeatureForest.setInNode node id enabled with
    | Except.error err => Except.error err
    | Except.ok (some node2) => Except.ok (some (node2 :: rest))
    | Except.ok none =>
      match FeatureForest.setInChildren rest id enabled with
      | Except.error err => Except.error err
      | Except.ok (some rest2) => Except.ok (some (node :: rest2))
      | Except.ok none => Except.ok none

end

/-- State-passing model of the mutation performed by `FeatureForest.set`:
locate the node exactly as `findNodeInTopology` does and rebuild the topology
with that node's `enabled` flag replaced.  `Except.ok none` corresponds to
`findNodeInTopology` returning `undefined` (no assignment happened),
`Except.error` to a throw during the lookup. -/
def FeatureForest.setNodes [DecidableEq T]
    (topology : List (FeatureNode T)) (id : T) (enabled : Bool) :
    Except String (Option (List (FeatureNode T))) :=
  match topology.find? (fun node => node.metadata.id == id) with
  | some _ => Except.ok (some (FeatureForest.setFirstHere topology id enabled))
  | none => FeatureForest.setInChildren topology id enabled

/-- `FeatureForest.set`: `findNodeInTopology(feature)!.enabled = enabled`.
When the feature is absent the JS assignment to `undefined` throws a
`TypeError` (before any flag has been modified). -/
def FeatureForest.set [DecidableEq T] (topology : List (FeatureNode T)) (feature : T)
    (enabled : Bool) : Except String (List (FeatureNode T)) :=
  match FeatureForest.setNodes topology feature enabled with
  | Except.error e => Except.error e
  | Except.ok (some updated) => Except.ok updated
  | Except.ok none => Except.error "TypeError: Cannot set properties of undefined (setting 'enabled')."

/-- `FeatureForest.enable`: `set(feature, true)`. -/
def FeatureForest.enable [DecidableEq T] (topology : List (FeatureNode T)) (feature : T) :
    Except String (List (FeatureNode T)) :=
  FeatureForest.set topology feature true

/-- `FeatureForest.disable`: `set(feature, false)`. -/
def FeatureForest.disable [DecidableEq T] (topology : List (FeatureNode T)) (feature : T) :
    Except String (List (FeatureNode T)) :=
  FeatureForest.set topology feature false

mutual

/-- Validation-free core of `findInNode`. -/
def FeatureForest.findInNodePure [DecidableEq T] :
    FeatureNode T → T → Option (FeatureNode T)
  | .mk _ cs _, id =>
    match cs.find? (fun node => node.metadata.id == id) with
    | some desired => some desired
    | none => FeatureForest.findChildrenPure cs id

/-- Validation-free core of `findNodeInChildren`. -/
def FeatureForest.findChildrenPure [DecidableEq T] :
    List (FeatureNode T) → T → Option (FeatureNode T)
  | [], _ => none
  | node :: rest, id =>
    match FeatureForest.findInNodePure node id with
    | some result => some result
    | none => FeatureForest.findChildrenPure rest id

end

/-- Validation-free core of `findNodeInTopology`: the node the search returns
(first match in its search order) whenever no sub-forest validation throws. -/
def FeatureForest.findNodePure [DecidableEq T]
    (topology : List (FeatureNode T)) (id : T) : Option (FeatureNode T) :=
  match topology.find? (fun node => node.metadata.id == id) with
  | some desired => some desired
  | none => FeatureForest.findChildrenPure topology id

mutual

/-- Validation-free core of `setInNode`. -/
def FeatureForest.setInNodePure [DecidableEq T] :
    FeatureNode T → T → Bool → Option (FeatureNode T)
  | .mk m cs e, id, enabled =>
    match cs.find? (fun node => node.metadata.id == id) with
    | some _ => some (FeatureNode.mk m (FeatureForest.setFirstHere cs id enabled) e)
    | none =>
      match FeatureForest.setChildrenPure cs id enabled with
      | some cs2 => some (FeatureNode.mk m cs2 e)
      | none => none

/-- Validation-free core of `setInChildren`. -/
def FeatureForest.setChildrenPure [DecidableEq T] :
    List (FeatureNode T) → T → Bool → Option (List (FeatureNode T))
  | [], _, _ => none
  | node :: rest, id, enabled =>
    match FeatureForest.setInNodePure node id enabled with
    | some node2 => some (node2 :: rest)
    | none =>
      match FeatureForest.setChildrenPure rest id enabled with
      | some rest2 => some (node :: rest2)
      | none => none

end

/-- Validation-free core of `setNodes`: the updated topology (the first node
in `findNodeInTopology` search order gets its flag replaced), or `none` when
the id is absent. -/
def FeatureForest.setNodesPure [DecidableEq T]
    (topology : List (FeatureNode T)) (id : T) (enabled : Bool) :
    Option (List (FeatureNode T)) :=
  match topology.find? (fun node => node.metadata.id == id) with
  | some _ => some (FeatureForest.setFirstHere topology id enabled)
  | none => FeatureForest.setChildrenPure topology id enabled

mutual

/-- All identifiers of a node's subtree, the node's own id first. -/
def FeatureNode.idsOf : FeatureNode T → List T
  | .mk m cs _ => m.id :: FeatureNode.idsOfList cs

/-- All identifiers occurring anywhere in a forest. -/
def FeatureNode.idsOfList : List (FeatureNode T) → List T
  | [] => []
  | n :: rest => n.idsOf ++ FeatureNode.idsOfList rest

end

/-- The specification's validity invariant: identifiers are globally unique
across the whole forest. -/
abbrev FeatureForest.uniqueIds (topology : List (FeatureNode T)) : Prop :=
  (FeatureNode.idsOfList topology).Nodup

/-- A node is reachable from some root through an unbroken chain of enabled
nodes (the node itself included). -/
inductive FeatureForest.EnabledReachable (topology : List (FeatureNode T)) :
    FeatureNode T → Prop where
  | root (n : FeatureNode T) (hmem : n ∈ topology) (hen : n.enabled = true) :
      FeatureForest.EnabledReachable topology n
  | child (p c : FeatureNode T) (hp : FeatureForest.EnabledReachable topology p)
      (hmem : c ∈ p.children) (hen : c.enabled = true) :
      FeatureForest.EnabledReachable topology c

/-- One step of the `getAllEnabled` frontier advance. -/
def FeatureForest.frontierStep (s : List (FeatureNode T)) : List (FeatureNode T) :=
  s.flatMap fun node => node.children.filter fun child => child.enabled

/-- The frontier after `k` advances of the `getAllEnabled` loop. -/
def FeatureForest.frontier (k : Nat) (s : List (FeatureNode T)) : List (FeatureNode T) :=
  FeatureForest.frontierStep^[k] s

mutual

/-- Length of the longest chain of consecutively enabled nodes starting at
this node (0 when the node is disabled). -/
def FeatureNode.enabledHeight : FeatureNode T → Nat
  | .mk _ cs e => if e then 1 + FeatureNode.enabledHeightList cs else 0

/-- Longest enabled chain starting at any node of the list. -/
def FeatureNode.enabledHeightList : List (FeatureNode T) → Nat
  | [] => 0
  | n :: rest => max n.enabledHeight (FeatureNode.enabledHeightList rest)

end

/-- Metadata of `CinnamonProjectFeature.VALIDATOR` from `project.mts`
(the enum values of `CinnamonProjectFeatureType` are their own names). -/
def CinnamonProjectFeature.VALIDATOR : FeatureNodeMetadata String :=
  ⟨"VALIDATOR", "Cinnamon Validator",
    "Provides data validation with human-readable error messages."⟩

/-- Metadata of `CinnamonProjectFeature.DATABASE` from `project.mts`. -/
def CinnamonProjectFeature.DATABASE : FeatureNodeMetadata String :=
  ⟨"DATABASE", "Cinnamon Database (powered by MikroORM)",
    "Connect to a database and manage data with MikroORM."⟩

/-- Metadata of `CinnamonProjectFeature.AUTHENTICATION` from `project.mts`. -/
def CinnamonProjectFeature.AUTHENTICATION : FeatureNodeMetadata String :=
  ⟨"AUTHENTICATION", "Authentication",
    "Manage user accounts and authenticate users."⟩

/-- Metadata of `CinnamonProjectFeature.PUSH_TOKENS` from `project.mts`. -/
def CinnamonProjectFeature.PUSH_TOKENS : FeatureNodeMetadata String :=
  ⟨"PUSH_TOKENS", "Push Tokens",
    "Support for associating push tokens for mobile devices with a user session."⟩

/-- Metadata of `CinnamonProjectFeature.ASSET` from `project.mts`. -/
def CinnamonProjectFeature.ASSET : FeatureNodeMetadata String :=
  ⟨"ASSET", "Assets",
    "Support for storing assets (e.g., profile avatars/pictures) for users."⟩

/-- Metadata of `CinnamonProjectFeature.AVATAR` from `project.mts`. -/
def CinnamonProjectFeature.AVATAR : FeatureNodeMetadata String :=
  ⟨"AVATAR", "Avatars",
    "Support for storing profile pictures for users."⟩

/-- Metadata of `CinnamonProjectFeature.ASL_PROTOCOL` from `project.mts`. -/
def CinnamonProjectFeature.ASL_PROTOCOL : FeatureNodeMetadata String :=
  ⟨"ASL_PROTOCOL", "Apollo Software Limited (ASL) Protocol",
    "Installs the asl-protocol plugin. Adds ASL's request-response middlewares and several convenience features to Cinnamon."⟩

/-- Metadata of `CinnamonProjectFeature.ASL_ERRORS` from `project.mts`. -/
def CinnamonProjectFeature.ASL_ERRORS : FeatureNodeMetadata String :=
  ⟨"ASL_ERRORS", "ASL Errors",
    "Adds project/domain-specific error codes and handling to your project. Useful for API projects."⟩

/-- Metadata of `CinnamonProjectFeature.WEBSERVER_SETTINGS_PLUGIN` from `project.mts`. -/
def CinnamonProjectFeature.WEBSERVER_SETTINGS_PLUGIN : FeatureNodeMetadata String :=
  ⟨"WEBSERVER_SETTINGS_PLUGIN", "Webserver Settings Plugin",
    "Adds a plugin to your project that allows configuring the proxy mode of the webserver. Useful as a starting point for your own plugins."⟩

/-- The reference catalog topology built by `createCinnamonFeatureForest` in
`project.mts` (the `node(...)` helper defaults `enabled` to `false`). -/
def createCinnamonFeatureForest : List (FeatureNode String) :=
  [FeatureNode.mk CinnamonProjectFeature.VALIDATOR [] false,
   FeatureNode.mk CinnamonProjectFeature.DATABASE
     [FeatureNode.mk CinnamonProjectFeature.AUTHENTICATION
        [FeatureNode.mk CinnamonProjectFeature.PUSH_TOKENS [] false] false,
      FeatureNode.mk CinnamonProjectFeature.ASSET
        [FeatureNode.mk CinnamonProjectFeature.AVATAR [] false] false] false,
   FeatureNode.mk CinnamonProjectFeature.ASL_PROTOCOL [] false,
   FeatureNode.mk CinnamonProjectFeature.ASL_ERRORS [] false,
   FeatureNode.mk CinnamonProjectFeature.WEBSERVER_SETTINGS_PLUGIN [] false]

/-- The catalog after the single call `enable(DATABASE)`: only the stored
flag of the `DATABASE` root differs. -/
def cinnamonAfterEnableDatabase : List (FeatureNode String) :=
  [FeatureNode.mk CinnamonProjectFeature.VALIDATOR [] false,
   FeatureNode.mk CinnamonProjectFeature.DATABASE
     [FeatureNode.mk CinnamonProjectFeature.AUTHENTICATION
        [FeatureNode.mk CinnamonProjectFeature.PUSH_TOKENS [] false] false,
      FeatureNode.mk CinnamonProjectFeature.ASSET
        [FeatureNode.mk CinnamonProjectFeature.AVATAR [] false] false] true,
   FeatureNode.mk CinnamonProjectFeature.ASL_PROTOCOL [] false,
   FeatureNode.mk CinnamonProjectFeature.ASL_ERRORS [] false,
   FeatureNode.mk CinnamonProjectFeature.WEBSERVER_SETTINGS_PLUGIN [] false]

/-- A topology in which two cousin nodes in different subtrees share the
identifier `"C"` while roots and siblings are distinct. -/
def cousinsTopology : List (FeatureNode String) :=
  [FeatureNode.mk ⟨"A", "Root A", ""⟩
     [FeatureNode.mk ⟨"C", "First cousin", ""⟩ [] false] false,
   FeatureNode.mk ⟨"B", "Root B", ""⟩
     [FeatureNode.mk ⟨"C", "Second cousin", ""⟩ [] false] false]

theorem FeatureNode.sizeList_append (a b : List (FeatureNode T)) :
    FeatureNode.sizeList (a ++ b) = FeatureNode.sizeList a + FeatureNode.sizeList b := by
  induction a with
  | nil => show FeatureNode.sizeList b = 0 + FeatureNode.sizeList b; omega
  | cons x xs ih =>
    show x.size + FeatureNode.sizeList (xs ++ b) =
      x.size + FeatureNode.sizeList xs + FeatureNode.sizeList b
    rw [ih]
    omega

theorem FeatureNode.sizeList_le_of_sublist {a b : List (FeatureNode T)} (h : a.Sublist b) :
    FeatureNode.sizeList a ≤ FeatureNode.sizeList b := by
  induction h with
  | slnil => exact Nat.le_refl _
  | cons n _ ih =>
    rename_i l1 l2 _
    show FeatureNode.sizeList l1 ≤ n.size + FeatureNode.sizeList l2
    omega
  | cons₂ n _ ih =>
    rename_i l1 l2 _
    show n.size + FeatureNode.sizeList l1 ≤ n.size + FeatureNode.sizeList l2
    omega

theorem FeatureNode.size_cons (n : FeatureNode T) (rest : List (FeatureNode T)) :
    FeatureNode.sizeList (n :: rest) =
      1 + FeatureNode.sizeList n.children + FeatureNode.sizeList rest := by
  cases n with
  | mk m cs e =>
    show (FeatureNode.mk m cs e).size + FeatureNode.sizeList rest = _
    rfl

theorem FeatureNode.sizeList_flatMap_children (l : List (FeatureNode T)) :
    FeatureNode.sizeList (l.flatMap fun node => node.children) + l.length =
      FeatureNode.sizeList l := by
  induction l with
  | nil => rfl
  | cons n rest ih =>
    cases n with
    | mk m cs e =>
      have hsplit : ((FeatureNode.mk m cs e :: rest).flatMap fun node => node.children) =
          cs ++ rest.flatMap fun node => node.children := rfl
      rw [hsplit, FeatureNode.sizeList_append, FeatureNode.size_cons, List.length_cons]
      show _ = 1 + FeatureNode.sizeList cs + FeatureNode.sizeList rest
      omega

theorem FeatureNode.idsOfList_append (a b : List (FeatureNode T)) :
    FeatureNode.idsOfList (a ++ b) = FeatureNode.idsOfList a ++ FeatureNode.idsOfList b := by
  induction a with
  | nil => rfl
  | cons x xs ih =>
    show x.idsOf ++ FeatureNode.idsOfList (xs ++ b) =
      (x.idsOf ++ FeatureNode.idsOfList xs) ++ FeatureNode.idsOfList b
    rw [ih, List.append_assoc]

theorem FeatureNode.idsOf_def (n : FeatureNode T) :
    n.idsOf = n.metadata.id :: FeatureNode.idsOfList n.children := by
  cases n with
  | mk m cs e => rfl

theorem FeatureNode.mem_idsOfList_of_mem {l : List (FeatureNode T)} {n : FeatureNode T}
    (hn : n ∈ l) {x : T} (hx : x ∈ n.idsOf) : x ∈ FeatureNode.idsOfList l := by
  induction l with
  | nil => cases hn
  | cons y ys ih =>
    show x ∈ y.idsOf ++ FeatureNode.idsOfList ys
    rcases List.mem_cons.mp hn with h | h
    · subst h; exact List.mem_append_left _ hx
    · exact List.mem_append_right _ (ih h)

theorem FeatureNode.id_mem_idsOfList {l : List (FeatureNode T)} {n : FeatureNode T}
    (hn : n ∈ l) : n.metadata.id ∈ FeatureNode.idsOfList l :=
  FeatureNode.mem_idsOfList_of_mem hn (by rw [FeatureNode.idsOf_def]; exact List.mem_cons_self _ _)

theorem FeatureNode.nodup_map_id_of_nodup_ids {l : List (FeatureNode T)}
    (h : (FeatureNode.idsOfList l).Nodup) : (l.map fun node => node.metadata.id).Nodup := by
  induction l with
  | nil => exact List.nodup_nil
  | cons n rest ih =>
    have h' : (n.idsOf ++ FeatureNode.idsOfList rest).Nodup := h
    rw [List.nodup_append] at h'
    obtain ⟨h1, h2, h3⟩ := h'
    rw [List.map_cons, List.nodup_cons]
    refine ⟨?_, ih h2⟩
    intro hmem
    rcases List.mem_map.mp hmem with ⟨m, hm, hid⟩
    exact h3 (show n.metadata.id ∈ n.idsOf by
        rw [FeatureNode.idsOf_def]; exact List.mem_cons_self _ _)
      (hid ▸ FeatureNode.id_mem_idsOfList hm)

theorem FeatureNode.nodup_ids_of_mem {l : List (FeatureNode T)} {n : FeatureNode T}
    (h : (FeatureNode.idsOfList l).Nodup) (hn : n ∈ l) : n.idsOf.Nodup := by
  induction l with
  | nil => cases hn
  | cons y ys ih =>
    have h' : (y.idsOf ++ FeatureNode.idsOfList ys).Nodup := h
    rw [List.nodup_append] at h'
    obtain ⟨h1, h2, _⟩ := h'
    rcases List.mem_cons.mp hn with hny | hny
    · subst hny; exact h1
    · exact ih h2 hny

theorem FeatureNode.nodup_children_ids_of_nodup {n : FeatureNode T}
    (h : n.idsOf.Nodup) : (FeatureNode.idsOfList n.children).Nodup := by
  rw [FeatureNode.idsOf_def, List.nodup_cons] at h
  exact h.2

theorem FeatureNode.checkChildrenEach_ok [DecidableEq T] :
    ∀ (l : List (FeatureNode T)) (P : List T),
      (FeatureNode.idsOfList l).Nodup →
      (∀ x ∈ FeatureNode.idsOfList l, x ∉ P) →
      FeatureNode.checkChildrenEach l P = Except.ok ()
  | [], _, _, _ => rfl
  | .mk m cs e :: rest, P, hnd, hdis => by
    have hnd' : ((FeatureNode.mk m cs e).idsOf ++ FeatureNode.idsOfList rest).Nodup := hnd
    rw [List.nodup_append] at hnd'
    obtain ⟨hc, hrest, hdisj⟩ := hnd'
    have hdis' : ∀ x ∈ (FeatureNode.mk m cs e).idsOf ++ FeatureNode.idsOfList rest, x ∉ P := hdis
    have hcid_mem : (FeatureNode.mk (T := T) m cs e).metadata.id ∈ (FeatureNode.mk (T := T) m cs e).idsOf := by
      rw [FeatureNode.idsOf_def]; exact List.mem_cons_self _ _
    have hnotP : (FeatureNode.mk (T := T) m cs e).metadata.id ∉ P :=
      hdis' _ (List.mem_append_left _ hcid_mem)
    have hcontains : P.contains (FeatureNode.mk (T := T) m cs e).metadata.id = false := by
      simpa using hnotP
    rw [FeatureNode.checkChildrenEach, hcontains]
    simp only [Bool.false_eq_true, if_false]
    have hchk : FeatureNode.checkChildren (FeatureNode.mk m cs e)
        (P ++ [(FeatureNode.mk (T := T) m cs e).metadata.id]) = Except.ok () := by
      rw [FeatureNode.checkChildren]
      have hcsnd : (FeatureNode.idsOfList cs).Nodup :=
        FeatureNode.nodup_children_ids_of_nodup (n := FeatureNode.mk m cs e) hc
      have hmap : (cs.map fun child => child.metadata.id).Nodup :=
        FeatureNode.nodup_map_id_of_nodup_ids hcsnd
      rw [if_pos hmap]
      apply FeatureNode.checkChildrenEach_ok cs _ hcsnd
      intro x hx
      have hxtail : x ∈ (FeatureNode.mk (T := T) m cs e).idsOf := by
        rw [FeatureNode.idsOf_def]
        exact List.mem_cons_of_mem _ hx
      intro hxP
      rcases List.mem_append.mp hxP with hxP | hxid
      · exact hdis' x (List.mem_append_left _ hxtail) hxP
      · have hxm : x = (FeatureNode.mk (T := T) m cs e).metadata.id :=
          List.mem_singleton.mp hxid
        have hnods : (FeatureNode.mk (T := T) m cs e).idsOf.Nodup := hc
        rw [FeatureNode.idsOf_def, List.nodup_cons] at hnods
        exact hnods.1 (hxm ▸ hx)
    rw [hchk]
    apply FeatureNode.checkChildrenEach_ok rest P hrest
    intro x hx
    exact hdis' x (List.mem_append_right _ hx)
termination_by l => FeatureNode.sizeList l
decreasing_by
  all_goals simp only [FeatureNode.size_cons, FeatureNode.children]
  all_goals omega

theorem FeatureNode.checkChildren_ok [DecidableEq T] {n : FeatureNode T} {P : List T}
    (hnd : (FeatureNode.idsOfList n.children).Nodup)
    (hdis : ∀ x ∈ FeatureNode.idsOfList n.children, x ∉ P) :
    FeatureNode.checkChildren n P = Except.ok () := by
  cases n with
  | mk m cs e =>
    rw [FeatureNode.checkChildren]
    have hcs : (FeatureNode.mk m cs e).children = cs := rfl
    rw [hcs] at hnd hdis
    rw [if_pos (FeatureNode.nodup_map_id_of_nodup_ids hnd)]
    exact FeatureNode.checkChildrenEach_ok cs P hnd hdis

theorem FeatureForest.checkRoots_ok [DecidableEq T] {l : List (FeatureNode T)} {P : List T}
    (h : ∀ n ∈ l, FeatureNode.checkChildren n P = Except.ok ()) :
    FeatureForest.checkRoots l P = Except.ok () := by
  induction l with
  | nil => rfl
  | cons n rest ih =>
    rw [FeatureForest.checkRoots, h n (List.mem_cons_self _ _)]
    exact ih fun x hx => h x (List.mem_cons_of_mem _ hx)

theorem FeatureNode.ids_below_not_root {t : List (FeatureNode T)}
    (hnd : (FeatureNode.idsOfList t).Nodup) {n : FeatureNode T} (hn : n ∈ t) {x : T}
    (hx : x ∈ FeatureNode.idsOfList n.children) :
    x ∉ t.map fun node => node.metadata.id := by
  induction t with
  | nil => cases hn
  | cons y ys ih =>
    have hnd' : (y.idsOf ++ FeatureNode.idsOfList ys).Nodup := hnd
    rw [List.nodup_append] at hnd'
    obtain ⟨hy, hys, hdisj⟩ := hnd'
    intro hmem
    rw [List.map_cons, List.mem_cons] at hmem
    have hx_n : x ∈ n.idsOf := by
      rw [FeatureNode.idsOf_def]
      exact List.mem_cons_of_mem _ hx
    rcases List.mem_cons.mp hn with hncase | hncase
    · subst hncase
      rcases hmem with hxy | hxys
      · have : n.idsOf.Nodup := hy
        rw [FeatureNode.idsOf_def, List.nodup_cons] at this
        exact this.1 (hxy ▸ hx)
      · rcases List.mem_map.mp hxys with ⟨m, hm, hmid⟩
        exact hdisj hx_n (hmid ▸ FeatureNode.id_mem_idsOfList hm)
    · rcases hmem with hxy | hxys
      · have hx_ys : x ∈ FeatureNode.idsOfList ys :=
          FeatureNode.mem_idsOfList_of_mem hncase hx_n
        exact hdisj (hxy ▸ (show y.metadata.id ∈ y.idsOf by
          rw [FeatureNode.idsOf_def]; exact List.mem_cons_self _ _)) hx_ys
      · exact ih hys hncase hxys

theorem FeatureForest.create_ok_of_uniqueIds [DecidableEq T] {t : List (FeatureNode T)}
    (h : FeatureForest.uniqueIds t) : FeatureForest.create t = Except.ok t := by
  rw [FeatureForest.create]
  rw [if_pos (FeatureNode.nodup_map_id_of_nodup_ids h)]
  have hroots : FeatureForest.checkRoots t (t.map fun node => node.metadata.id) =
      Except.ok () := by
    apply FeatureForest.checkRoots_ok
    intro n hn
    apply FeatureNode.checkChildren_ok
    · exact FeatureNode.nodup_children_ids_of_nodup (FeatureNode.nodup_ids_of_mem h hn)
    · intro x hx
      exact FeatureNode.ids_below_not_root h hn hx
  rw [hroots]

theorem FeatureForest.find_id_none [DecidableEq T] {l : List (FeatureNode T)} {id : T}
    (h : id ∉ FeatureNode.idsOfList l) :
    l.find? (fun node => node.metadata.id == id) = none := by
  rw [List.find?_eq_none]
  intro x hx
  simp only [beq_iff_eq]
  intro heq
  exact h (heq ▸ FeatureNode.id_mem_idsOfList hx)

theorem FeatureForest.findChildrenPure_none [DecidableEq T] :
    ∀ (l : List (FeatureNode T)) (id : T), id ∉ FeatureNode.idsOfList l →
      FeatureForest.findChildrenPure l id = none
  | [], _, _ => rfl
  | .mk m cs e :: rest, id, h => by
    have hid_cs : id ∉ FeatureNode.idsOfList cs := by
      intro hmem
      exact h (FeatureNode.mem_idsOfList_of_mem (List.mem_cons_self _ _)
        (by rw [FeatureNode.idsOf_def]; exact List.mem_cons_of_mem _ hmem))
    have hid_rest : id ∉ FeatureNode.idsOfList rest := by
      intro hmem
      apply h
      show id ∈ (FeatureNode.mk m cs e).idsOf ++ FeatureNode.idsOfList rest
      exact List.mem_append_right _ hmem
    rw [FeatureForest.findChildrenPure, FeatureForest.findInNodePure,
      FeatureForest.find_id_none hid_cs,
      FeatureForest.findChildrenPure_none cs id hid_cs,
      FeatureForest.findChildrenPure_none rest id hid_rest]
termination_by l => FeatureNode.sizeList l
decreasing_by
  all_goals simp only [FeatureNode.size_cons, FeatureNode.children]
  all_goals omega

theorem FeatureForest.findNodePure_none [DecidableEq T] {t : List (FeatureNode T)} {id : T}
    (h : id ∉ FeatureNode.idsOfList t) : FeatureForest.findNodePure t id = none := by
  rw [FeatureForest.findNodePure, FeatureForest.find_id_none h,
    FeatureForest.findChildrenPure_none t id h]

theorem FeatureForest.setChildrenPure_none [DecidableEq T] :
    ∀ (l : List (FeatureNode T)) (id : T) (b : Bool), id ∉ FeatureNode.idsOfList l →
      FeatureForest.setChildrenPure l id b = none
  | [], _, _, _ => rfl
  | .mk m cs e :: rest, id, b, h => by
    have hid_cs : id ∉ FeatureNode.idsOfList cs := by
      intro hmem
      exact h (FeatureNode.mem_idsOfList_of_mem (List.mem_cons_self _ _)
        (by rw [FeatureNode.idsOf_def]; exact List.mem_cons_of_mem _ hmem))
    have hid_rest : id ∉ FeatureNode.idsOfList rest := by
      intro hmem
      apply h
      show id ∈ (FeatureNode.mk m cs e).idsOf ++ FeatureNode.idsOfList rest
      exact List.mem_append_right _ hmem
    rw [FeatureForest.setChildrenPure, FeatureForest.setInNodePure,
      FeatureForest.find_id_none hid_cs,
      FeatureForest.setChildrenPure_none cs id b hid_cs,
      FeatureForest.setChildrenPure_none rest id b hid_rest]
termination_by l => FeatureNode.sizeList l
decreasing_by
  all_goals simp only [FeatureNode.size_cons, FeatureNode.children]
  all_goals omega

theorem FeatureForest.setNodesPure_none [DecidableEq T] {t : List (FeatureNode T)} {id : T}
    {b : Bool} (h : id ∉ FeatureNode.idsOfList t) :
    FeatureForest.setNodesPure t id b = none := by
  rw [FeatureForest.setNodesPure, FeatureForest.find_id_none h,
    FeatureForest.setChildrenPure_none t id b h]

theorem FeatureForest.setInChildren_ok_imp_pure [DecidableEq T] :
    ∀ (l : List (FeatureNode T)) (id : T) (b : Bool)
      (r : Option (List (FeatureNode T))),
      FeatureForest.setInChildren l id b = Except.ok r →
      r = FeatureForest.setChildrenPure l id b
  | [], _, _, r, h => by
    rw [FeatureForest.setInChildren] at h
    injection h with h
    rw [← h]
    rfl
  | .mk m cs e :: rest, id, b, r, h => by
    rw [FeatureForest.setInChildren, FeatureForest.setInNode] at h
    rw [FeatureForest.setChildrenPure, FeatureForest.setInNodePure]
    cases hcr : FeatureForest.create cs with
    | error err => rw [hcr] at h; cases h
    | ok u =>
      rw [hcr] at h
      cases hfind : cs.find? (fun node => node.metadata.id == id) with
      | some d =>
        rw [hfind] at h
        injection h with h
        rw [← h]
      | none =>
        rw [hfind] at h
        cases hsc : FeatureForest.setInChildren cs id b with
        | error err => rw [hsc] at h; cases h
        | ok rc =>
          rw [hsc] at h
          have hrc := FeatureForest.setInChildren_ok_imp_pure cs id b rc hsc
          cases rc with
          | some cs2 =>
            injection h with h
            rw [← h, ← hrc]
          | none =>
            cases hsr : FeatureForest.setInChildren rest id b with
            | error err => rw [hsr] at h; cases h
            | ok rr =>
              rw [hsr] at h
              have hrr := FeatureForest.setInChildren_ok_imp_pure rest id b rr hsr
              cases rr with
              | some rest2 =>
                injection h with h
                rw [← h, ← hrc, ← hrr]
              | none =>
                injection h with h
                rw [← h, ← hrc, ← hrr]
termination_by l => FeatureNode.sizeList l
decreasing_by
  all_goals simp only [FeatureNode.size_cons, FeatureNode.children]
  all_goals omega

theorem FeatureForest.setNodes_ok_imp_pure [DecidableEq T] {t : List (FeatureNode T)}
    {id : T} {b : Bool} {r : Option (List (FeatureNode T))}
    (h : FeatureForest.setNodes t id b = Except.ok r) :
    r = FeatureForest.setNodesPure t id b := by
  rw [FeatureForest.setNodes] at h
  rw [FeatureForest.setNodesPure]
  cases hfind : t.find? (fun node => node.metadata.id == id) with
  | some d =>
    rw [hfind] at h
    injection h with h
    rw [← h]
  | none =>
    rw [hfind] at h
    exact FeatureForest.setInChildren_ok_imp_pure t id b r h

theorem FeatureForest.findNodeInChildren_eq_pure [DecidableEq T] :
    ∀ (l : List (FeatureNode T)), (FeatureNode.idsOfList l).Nodup → ∀ (id : T),
      FeatureForest.findNodeInChildren l id =
        Except.ok (FeatureForest.findChildrenPure l id)
  | [], _, _ => rfl
  | .mk m cs e :: rest, hnd, id => by
    have hnd' : ((FeatureNode.mk m cs e).idsOf ++ FeatureNode.idsOfList rest).Nodup := hnd
    rw [List.nodup_append] at hnd'
    obtain ⟨hc, hrest, _⟩ := hnd'
    have hcs : (FeatureNode.idsOfList cs).Nodup :=
      FeatureNode.nodup_children_ids_of_nodup (n := FeatureNode.mk m cs e) hc
    have hcr : FeatureForest.create cs = Except.ok cs :=
      FeatureForest.create_ok_of_uniqueIds hcs
    rw [FeatureForest.findNodeInChildren, FeatureForest.findInNode, hcr,
      FeatureForest.findChildrenPure, FeatureForest.findInNodePure]
    cases hfind : cs.find? (fun node => node.metadata.id == id) with
    | some d => rfl
    | none =>
      rw [FeatureForest.findNodeInChildren_eq_pure cs hcs id]
      cases hfcp : FeatureForest.findChildrenPure cs id with
      | some r => rfl
      | none => exact FeatureForest.findNodeInChildren_eq_pure rest hrest id
termination_by l => FeatureNode.sizeList l
decreasing_by
  all_goals simp only [FeatureNode.size_cons, FeatureNode.children]
  all_goals omega

theorem FeatureForest.findNodeInTopology_eq_pure [DecidableEq T]
    {t : List (FeatureNode T)} (h : FeatureForest.uniqueIds t) (id : T) :
    FeatureForest.findNodeInTopology t id = Except.ok (FeatureForest.findNodePure t id) := by
  rw [FeatureForest.findNodeInTopology, FeatureForest.findNodePure]
  cases hfind : t.find? (fun node => node.metadata.id == id) with
  | some d => rfl
  | none => exact FeatureForest.findNodeInChildren_eq_pure t h id

theorem FeatureForest.setInChildren_eq_pure [DecidableEq T] :
    ∀ (l : List (FeatureNode T)), (FeatureNode.idsOfList l).Nodup → ∀ (id : T) (b : Bool),
      FeatureForest.setInChildren l id b =
        Except.ok (FeatureForest.setChildrenPure l id b)
  | [], _, _, _ => rfl
  | .mk m cs e :: rest, hnd, id, b => by
    have hnd' : ((FeatureNode.mk m cs e).idsOf ++ FeatureNode.idsOfList rest).Nodup := hnd
    rw [List.nodup_append] at hnd'
    obtain ⟨hc, hrest, _⟩ := hnd'
    have hcs : (FeatureNode.idsOfList cs).Nodup :=
      FeatureNode.nodup_children_ids_of_nodup (n := FeatureNode.mk m cs e) hc
    have hcr : FeatureForest.create cs = Except.ok cs :=
      FeatureForest.create_ok_of_uniqueIds hcs
    rw [FeatureForest.setInChildren, FeatureForest.setInNode, hcr,
      FeatureForest.setChildrenPure, FeatureForest.setInNodePure]
    cases hfind : cs.find? (fun node => node.metadata.id == id) with
    | some d => rfl
    | none =>
      rw [FeatureForest.setInChildren_eq_pure cs hcs id b]
      cases hscp : FeatureForest.setChildrenPure cs id b with
      | some cs2 => rfl
      | none =>
        rw [FeatureForest.setInChildren_eq_pure rest hrest id b]
        cases hsr : FeatureForest.setChildrenPure rest id b with
        | some rest2 => rfl
        | none => rfl
termination_by l => FeatureNode.sizeList l
decreasing_by
  all_goals simp only [FeatureNode.size_cons, FeatureNode.children]
  all_goals omega

theorem FeatureForest.setNodes_eq_pure [DecidableEq T]
    {t : List (FeatureNode T)} (h : FeatureForest.uniqueIds t) (id : T) (b : Bool) :
    FeatureForest.setNodes t id b = Except.ok (FeatureForest.setNodesPure t id b) := by
  rw [FeatureForest.setNodes, FeatureForest.setNodesPure]
  cases hfind : t.find? (fun node => node.metadata.id == id) with
  | some d => rfl
  | none => exact FeatureForest.setInChildren_eq_pure t h id b

theorem FeatureForest.get_eq_pure [DecidableEq T]
    {t : List (FeatureNode T)} (h : FeatureForest.uniqueIds t) (id : T) :
    FeatureForest.get t id =
      Except.ok (match FeatureForest.findNodePure t id with
        | some node => node.enabled
        | none => false) := by
  rw [FeatureForest.get, FeatureForest.findNodeInTopology_eq_pure h id]
  cases FeatureForest.findNodePure t id with
  | some node => rfl
  | none => rfl

theorem FeatureForest.idsOfList_setFirstHere [DecidableEq T] :
    ∀ (l : List (FeatureNode T)) (id : T) (b : Bool),
      FeatureNode.idsOfList (FeatureForest.setFirstHere l id b) = FeatureNode.idsOfList l
  | [], _, _ => rfl
  | .mk m cs e :: rest, id, b => by
    rw [FeatureForest.setFirstHere]
    by_cases h : m.id == id
    · rw [if_pos h]
      rfl
    · rw [if_neg h]
      show (FeatureNode.mk m cs e).idsOf ++ _ = (FeatureNode.mk m cs e).idsOf ++ _
      rw [FeatureForest.idsOfList_setFirstHere rest id b]

theorem FeatureForest.map_metadata_setFirstHere [DecidableEq T] :
    ∀ (l : List (FeatureNode T)) (id : T) (b : Bool),
      (FeatureForest.setFirstHere l id b).map (fun node => node.metadata) =
        l.map fun node => node.metadata
  | [], _, _ => rfl
  | .mk m cs e :: rest, id, b => by
    rw [FeatureForest.setFirstHere]
    by_cases h : m.id == id
    · rw [if_pos h]
      rfl
    · rw [if_neg h]
      show _ :: (FeatureForest.setFirstHere rest id b).map (fun node => node.metadata) = _
      rw [FeatureForest.map_metadata_setFirstHere rest id b]
      rfl

theorem FeatureForest.setFirstHere_setFirstHere [DecidableEq T] :
    ∀ (l : List (FeatureNode T)) (id : T) (b b' : Bool),
      FeatureForest.setFirstHere (FeatureForest.setFirstHere l id b) id b' =
        FeatureForest.setFirstHere l id b'
  | [], _, _, _ => rfl
  | .mk m cs e :: rest, id, b, b' => by
    rw [FeatureForest.setFirstHere]
    by_cases h : m.id == id
    · rw [if_pos h, FeatureForest.setFirstHere, if_pos h, FeatureForest.setFirstHere, if_pos h]
    · rw [if_neg h, FeatureForest.setFirstHere, if_neg h, FeatureForest.setFirstHere, if_neg h,
        FeatureForest.setFirstHere_setFirstHere rest id b b']

theorem FeatureForest.setFirstHere_id_of_flag [DecidableEq T] :
    ∀ (l : List (FeatureNode T)) (id : T) (b : Bool) (d : FeatureNode T),
      l.find? (fun node => node.metadata.id == id) = some d → d.enabled = b →
      FeatureForest.setFirstHere l id b = l
  | [], _, _, _, hfind, _ => by cases hfind
  | .mk m cs e :: rest, id, b, d, hfind, hflag => by
    rw [FeatureForest.setFirstHere]
    simp only [List.find?_cons, FeatureNode.metadata] at hfind
    by_cases h : m.id == id
    · rw [if_pos h]
      simp only [h] at hfind
      injection hfind with hfind
      have he : e = b := by
        rw [← hflag, ← hfind]
        rfl
      rw [he]
    · rw [if_neg h]
      rw [Bool.not_eq_true] at h
      simp only [h] at hfind
      rw [FeatureForest.setFirstHere_id_of_flag rest id b d hfind hflag]

theorem FeatureForest.find_isSome_congr [DecidableEq T] :
    ∀ (l u : List (FeatureNode T)) (id : T),
      (u.map fun node => node.metadata) = (l.map fun node => node.metadata) →
      (u.find? fun node => node.metadata.id == id).isSome =
        (l.find? fun node => node.metadata.id == id).isSome
  | [], [], _, _ => rfl
  | [], _ :: _, _, h => by cases h
  | _ :: _, [], _, h => by cases h
  | x :: xs, y :: ys, id, h => by
    rw [List.map_cons, List.map_cons] at h
    injection h with h1 h2
    rw [List.find?_cons, List.find?_cons]
    have hyx : (y.metadata.id == id) = (x.metadata.id == id) := by rw [h1]
    show (match y.metadata.id == id with
        | true => some y
        | false => ys.find? fun node => node.metadata.id == id).isSome = _
    rw [hyx]
    cases hx : x.metadata.id == id with
    | true => rfl
    | false =>
      show (ys.find? fun node => node.metadata.id == id).isSome = _
      exact FeatureForest.find_isSome_congr xs ys id h2

theorem FeatureForest.setInNodePure_meta [DecidableEq T] {n n2 : FeatureNode T} {id : T}
    {b : Bool} (h : FeatureForest.setInNodePure n id b = some n2) :
    n2.metadata = n.metadata ∧ n2.enabled = n.enabled := by
  cases n with
  | mk m cs e =>
    rw [FeatureForest.setInNodePure] at h
    cases hf : cs.find? (fun node => node.metadata.id == id) with
    | some d =>
      rw [hf] at h
      injection h with h
      rw [← h]
      exact ⟨rfl, rfl⟩
    | none =>
      rw [hf] at h
      cases hsc : FeatureForest.setChildrenPure cs id b with
      | some cs2 =>
        rw [hsc] at h
        injection h with h
        rw [← h]
        exact ⟨rfl, rfl⟩
      | none => rw [hsc] at h; cases h

theorem FeatureForest.setChildrenPure_map_metadata [DecidableEq T] :
    ∀ (l : List (FeatureNode T)) (id : T) (b : Bool) (u : List (FeatureNode T)),
      FeatureForest.setChildrenPure l id b = some u →
      (u.map fun node => node.metadata) = l.map fun node => node.metadata
  | [], _, _, _, h => by cases h
  | node :: rest, id, b, u, h => by
    rw [FeatureForest.setChildrenPure] at h
    cases hs : FeatureForest.setInNodePure node id b with
    | some node2 =>
      rw [hs] at h
      injection h with h
      rw [← h, List.map_cons, List.map_cons, (FeatureForest.setInNodePure_meta hs).1]
    | none =>
      rw [hs] at h
      cases hsr : FeatureForest.setChildrenPure rest id b with
      | some rest2 =>
        rw [hsr] at h
        injection h with h
        rw [← h, List.map_cons, List.map_cons,
          FeatureForest.setChildrenPure_map_metadata rest id b rest2 hsr]
      | none => rw [hsr] at h; cases h

theorem FeatureForest.setChildrenPure_ids [DecidableEq T] :
    ∀ (l : List (FeatureNode T)) (id : T) (b : Bool) (u : List (FeatureNode T)),
      FeatureForest.setChildrenPure l id b = some u →
      FeatureNode.idsOfList u = FeatureNode.idsOfList l
  | [], _, _, _, h => by cases h
  | .mk m cs e :: rest, id, b, u, h => by
    rw [FeatureForest.setChildrenPure, FeatureForest.setInNodePure] at h
    cases hf : cs.find? (fun node => node.metadata.id == id) with
    | some d =>
      rw [hf] at h
      injection h with h
      rw [← h]
      show (FeatureNode.mk m (FeatureForest.setFirstHere cs id b) e).idsOf ++ _ =
        (FeatureNode.mk m cs e).idsOf ++ _
      rw [FeatureNode.idsOf_def, FeatureNode.idsOf_def]
      show (m.id :: FeatureNode.idsOfList (FeatureForest.setFirstHere cs id b)) ++ _ = _
      rw [FeatureForest.idsOfList_setFirstHere cs id b]
      rfl
    | none =>
      rw [hf] at h
      cases hsc : FeatureForest.setChildrenPure cs id b with
      | some cs2 =>
        rw [hsc] at h
        injection h with h
        rw [← h]
        show (FeatureNode.mk m cs2 e).idsOf ++ _ = (FeatureNode.mk m cs e).idsOf ++ _
        rw [FeatureNode.idsOf_def, FeatureNode.idsOf_def]
        show (m.id :: FeatureNode.idsOfList cs2) ++ _ = _
        rw [FeatureForest.setChildrenPure_ids cs id b cs2 hsc]
        rfl
      | none =>
        rw [hsc] at h
        cases hsr : FeatureForest.setChildrenPure rest id b with
        | some rest2 =>
          rw [hsr] at h
          injection h with h
          rw [← h]
          show FeatureNode.idsOfList (FeatureNode.mk m cs e :: rest2) = _
          show (FeatureNode.mk m cs e).idsOf ++ FeatureNode.idsOfList rest2 = _
          rw [FeatureForest.setChildrenPure_ids rest id b rest2 hsr]
          rfl
        | none => rw [hsr] at h; cases h
termination_by l => FeatureNode.sizeList l
decreasing_by
  all_goals simp only [FeatureNode.size_cons, FeatureNode.children]
  all_goals omega

theorem FeatureForest.setChildrenPure_isSome [DecidableEq T] :
    ∀ (l : List (FeatureNode T)) (id : T) (b : Bool),
      (FeatureForest.setChildrenPure l id b).isSome =
        (FeatureForest.findChildrenPure l id).isSome
  | [], _, _ => rfl
  | .mk m cs e :: rest, id, b => by
    rw [FeatureForest.setChildrenPure, FeatureForest.setInNodePure,
      FeatureForest.findChildrenPure, FeatureForest.findInNodePure]
    cases hf : cs.find? (fun node => node.metadata.id == id) with
    | some d => rfl
    | none =>
      have hcs := FeatureForest.setChildrenPure_isSome cs id b
      cases hsc : FeatureForest.setChildrenPure cs id b with
      | some cs2 =>
        cases hfc : FeatureForest.findChildrenPure cs id with
        | some r => rfl
        | none => rw [hsc, hfc] at hcs; cases hcs
      | none =>
        cases hfc : FeatureForest.findChildrenPure cs id with
        | some r => rw [hsc, hfc] at hcs; cases hcs
        | none =>
          have hrest := FeatureForest.setChildrenPure_isSome rest id b
          cases hsr : FeatureForest.setChildrenPure rest id b with
          | some rest2 =>
            cases hfr : FeatureForest.findChildrenPure rest id with
            | some r => rfl
            | none => rw [hsr, hfr] at hrest; cases hrest
          | none =>
            cases hfr : FeatureForest.findChildrenPure rest id with
            | some r => rw [hsr, hfr] at hrest; cases hrest
            | none => rfl
termination_by l => FeatureNode.sizeList l
decreasing_by
  all_goals simp only [FeatureNode.size_cons, FeatureNode.children]
  all_goals omega

theorem FeatureForest.setNodesPure_isSome [DecidableEq T]
    (t : List (FeatureNode T)) (id : T) (b : Bool) :
    (FeatureForest.setNodesPure t id b).isSome = (FeatureForest.findNodePure t id).isSome := by
  rw [FeatureForest.setNodesPure, FeatureForest.findNodePure]
  cases hf : t.find? (fun node => node.metadata.id == id) with
  | some d => rfl
  | none => exact FeatureForest.setChildrenPure_isSome t id b

theorem FeatureForest.setChildrenPure_isSome_flag [DecidableEq T]
    (l : List (FeatureNode T)) (id : T) (b b' : Bool) :
    (FeatureForest.setChildrenPure l id b).isSome =
      (FeatureForest.setChildrenPure l id b').isSome := by
  rw [FeatureForest.setChildrenPure_isSome, FeatureForest.setChildrenPure_isSome]

theorem FeatureForest.setChildrenPure_setChildrenPure [DecidableEq T] :
    ∀ (l : List (FeatureNode T)) (id : T) (b b' : Bool) (u : List (FeatureNode T)),
      FeatureForest.setChildrenPure l id b = some u →
      FeatureForest.setChildrenPure u id b' = FeatureForest.setChildrenPure l id b'
  | [], _, _, _, _, h => by cases h
  | .mk m cs e :: rest, id, b, b', u, h => by
    rw [FeatureForest.setChildrenPure, FeatureForest.setInNodePure] at h
    conv_rhs => rw [FeatureForest.setChildrenPure, FeatureForest.setInNodePure]
    cases hf : cs.find? (fun node => node.metadata.id == id) with
    | some d =>
      rw [hf] at h
      injection h with h
      rw [← h, FeatureForest.setChildrenPure, FeatureForest.setInNodePure]
      have hcg := FeatureForest.find_isSome_congr cs (FeatureForest.setFirstHere cs id b) id
        (FeatureForest.map_metadata_setFirstHere cs id b)
      rw [hf] at hcg
      cases hf2 : (FeatureForest.setFirstHere cs id b).find?
          (fun node => node.metadata.id == id) with
      | none => rw [hf2] at hcg; simp at hcg
      | some d2 =>
        rw [FeatureForest.setFirstHere_setFirstHere cs id b b']
    | none =>
      rw [hf] at h
      cases hsc : FeatureForest.setChildrenPure cs id b with
      | some cs2 =>
        rw [hsc] at h
        injection h with h
        rw [← h, FeatureForest.setChildrenPure, FeatureForest.setInNodePure]
        have hcg := FeatureForest.find_isSome_congr cs cs2 id
          (FeatureForest.setChildrenPure_map_metadata cs id b cs2 hsc)
        rw [hf] at hcg
        cases hf2 : cs2.find? (fun node => node.metadata.id == id) with
        | some d2 => rw [hf2] at hcg; simp at hcg
        | none =>
          rw [FeatureForest.setChildrenPure_setChildrenPure cs id b b' cs2 hsc]
          cases hsc' : FeatureForest.setChildrenPure cs id b' with
          | some cs3 => rfl
          | none =>
            have hflag := FeatureForest.setChildrenPure_isSome_flag cs id b b'
            rw [hsc, hsc'] at hflag
            simp at hflag
      | none =>
        rw [hsc] at h
        cases hsr : FeatureForest.setChildrenPure rest id b with
        | some rest2 =>
          rw [hsr] at h
          injection h with h
          rw [← h, FeatureForest.setChildrenPure, FeatureForest.setInNodePure, hf]
          have hsc' : FeatureForest.setChildrenPure cs id b' = none := by
            have hflag := FeatureForest.setChildrenPure_isSome_flag cs id b b'
            rw [hsc] at hflag
            cases hx : FeatureForest.setChildrenPure cs id b' with
            | some cs3 => rw [hx] at hflag; simp at hflag
            | none => rfl
          rw [hsc']
          show (match FeatureForest.setChildrenPure rest2 id b' with
              | some r => some (FeatureNode.mk m cs e :: r)
              | none => none) =
            match FeatureForest.setChildrenPure rest id b' with
              | some r => some (FeatureNode.mk m cs e :: r)
              | none => none
          rw [FeatureForest.setChildrenPure_setChildrenPure rest id b b' rest2 hsr]
        | none =>
          rw [hsr] at h
          cases h
termination_by l => FeatureNode.sizeList l
decreasing_by
  all_goals simp only [FeatureNode.size_cons, FeatureNode.children]
  all_goals omega

theorem FeatureForest.setChildrenPure_id_of_flag [DecidableEq T] :
    ∀ (l : List (FeatureNode T)) (id : T) (b : Bool) (n : FeatureNode T),
      FeatureForest.findChildrenPure l id = some n → n.enabled = b →
      FeatureForest.setChildrenPure l id b = some l
  | [], _, _, _, h, _ => by cases h
  | .mk m cs e :: rest, id, b, n, h, hflag => by
    rw [FeatureForest.findChildrenPure, FeatureForest.findInNodePure] at h
    rw [FeatureForest.setChildrenPure, FeatureForest.setInNodePure]
    cases hf : cs.find? (fun node => node.metadata.id == id) with
    | some d =>
      rw [hf] at h
      injection h with h
      rw [FeatureForest.setFirstHere_id_of_flag cs id b d hf (h ▸ hflag)]
    | none =>
      rw [hf] at h
      cases hfc : FeatureForest.findChildrenPure cs id with
      | some r =>
        rw [hfc] at h
        injection h with h
        rw [FeatureForest.setChildrenPure_id_of_flag cs id b r hfc (h ▸ hflag)]
      | none =>
        rw [hfc] at h
        have hscn : FeatureForest.setChildrenPure cs id b = none := by
          have hs := FeatureForest.setChildrenPure_isSome cs id b
          rw [hfc] at hs
          cases hx : FeatureForest.setChildrenPure cs id b with
          | some cs2 => rw [hx] at hs; simp at hs
          | none => rfl
        rw [hscn, FeatureForest.setChildrenPure_id_of_flag rest id b n h hflag]
termination_by l => FeatureNode.sizeList l
decreasing_by
  all_goals simp only [FeatureNode.size_cons, FeatureNode.children]
  all_goals omega

theorem FeatureForest.setNodesPure_setNodesPure [DecidableEq T]
    {t u : List (FeatureNode T)} {id : T} {b b' : Bool}
    (h : FeatureForest.setNodesPure t id b = some u) :
    FeatureForest.setNodesPure u id b' = FeatureForest.setNodesPure t id b' := by
  rw [FeatureForest.setNodesPure] at h
  conv_rhs => rw [FeatureForest.setNodesPure]
  cases hf : t.find? (fun node => node.metadata.id == id) with
  | some d =>
    rw [hf] at h
    injection h with h
    rw [← h, FeatureForest.setNodesPure]
    have hcg := FeatureForest.find_isSome_congr t (FeatureForest.setFirstHere t id b) id
      (FeatureForest.map_metadata_setFirstHere t id b)
    rw [hf] at hcg
    cases hf2 : (FeatureForest.setFirstHere t id b).find?
        (fun node => node.metadata.id == id) with
    | none => rw [hf2] at hcg; simp at hcg
    | some d2 => rw [FeatureForest.setFirstHere_setFirstHere t id b b']
  | none =>
    rw [hf] at h
    rw [FeatureForest.setNodesPure]
    have hcg := FeatureForest.find_isSome_congr t u id
      (FeatureForest.setChildrenPure_map_metadata t id b u h)
    rw [hf] at hcg
    cases hf2 : u.find? (fun node => node.metadata.id == id) with
    | some d2 => rw [hf2] at hcg; simp at hcg
    | none => exact FeatureForest.setChildrenPure_setChildrenPure t id b b' u h

theorem FeatureForest.setNodesPure_id_of_flag [DecidableEq T]
    {t : List (FeatureNode T)} {id : T} {b : Bool} {n : FeatureNode T}
    (h : FeatureForest.findNodePure t id = some n) (hflag : n.enabled = b) :
    FeatureForest.setNodesPure t id b = some t := by
  rw [FeatureForest.findNodePure] at h
  rw [FeatureForest.setNodesPure]
  cases hf : t.find? (fun node => node.metadata.id == id) with
  | some d =>
    rw [hf] at h
    injection h with h
    rw [FeatureForest.setFirstHere_id_of_flag t id b d hf (h ▸ hflag)]
  | none =>
    rw [hf] at h
    exact FeatureForest.setChildrenPure_id_of_flag t id b n h hflag

theorem FeatureForest.setNodesPure_ids [DecidableEq T] {t u : List (FeatureNode T)}
    {id : T} {b : Bool} (h : FeatureForest.setNodesPure t id b = some u) :
    FeatureNode.idsOfList u = FeatureNode.idsOfList t := by
  rw [FeatureForest.setNodesPure] at h
  cases hf : t.find? (fun node => node.metadata.id == id) with
  | some d =>
    rw [hf] at h
    injection h with h
    rw [← h]
    exact FeatureForest.idsOfList_setFirstHere t id b
  | none =>
    rw [hf] at h
    exact FeatureForest.setChildrenPure_ids t id b u h

theorem FeatureForest.sizeList_frontierStep (s : List (FeatureNode T)) :
    FeatureNode.sizeList (FeatureForest.frontierStep s) + s.length ≤
      FeatureNode.sizeList s := by
  induction s with
  | nil => exact Nat.le_refl _
  | cons n rest ih =>
    cases n with
    | mk m cs e =>
      have hsplit : FeatureForest.frontierStep (FeatureNode.mk m cs e :: rest) =
          (cs.filter fun child => child.enabled) ++ FeatureForest.frontierStep rest := rfl
      have hfil := FeatureNode.sizeList_le_of_sublist
        (List.filter_sublist (l := cs) (p := fun child => child.enabled))
      rw [hsplit, FeatureNode.sizeList_append, FeatureNode.size_cons, List.length_cons]
      show _ ≤ 1 + FeatureNode.sizeList cs + FeatureNode.sizeList rest
      have hrest : FeatureNode.sizeList (FeatureForest.frontierStep rest) + rest.length ≤
          FeatureNode.sizeList rest := ih
      omega

theorem FeatureForest.frontier_zero (s : List (FeatureNode T)) :
    FeatureForest.frontier 0 s = s := rfl

theorem FeatureForest.frontier_succ (k : Nat) (s : List (FeatureNode T)) :
    FeatureForest.frontier (k + 1) s =
      FeatureForest.frontier k (FeatureForest.frontierStep s) :=
  Function.iterate_succ_apply _ _ _

theorem FeatureForest.frontier_succ_outer (k : Nat) (s : List (FeatureNode T)) :
    FeatureForest.frontier (k + 1) s =
      FeatureForest.frontierStep (FeatureForest.frontier k s) :=
  Function.iterate_succ_apply' _ _ _

theorem FeatureForest.frontier_nil (k : Nat) :
    FeatureForest.frontier (T := T) k [] = [] := by
  induction k with
  | zero => rfl
  | succ k ih => rw [FeatureForest.frontier_succ]; exact ih

theorem FeatureForest.mem_getAllEnabledLoop :
    ∀ (s : List (FeatureNode T)) (m : FeatureNodeMetadata T),
      m ∈ FeatureForest.getAllEnabledLoop s ↔
        ∃ k, m ∈ (FeatureForest.frontier k s).map fun node => node.metadata
  | s, m => by
    rw [FeatureForest.getAllEnabledLoop]
    by_cases h0 : 0 < s.length
    · rw [dif_pos h0, List.mem_append]
      have hstep : (s.flatMap fun node => node.children.filter fun child => child.enabled) =
          FeatureForest.frontierStep s := rfl
      rw [hstep, FeatureForest.mem_getAllEnabledLoop (FeatureForest.frontierStep s) m]
      constructor
      · rintro (hmap | ⟨k, hk⟩)
        · exact ⟨0, hmap⟩
        · exact ⟨k + 1, by rw [FeatureForest.frontier_succ]; exact hk⟩
      · rintro ⟨k, hk⟩
        cases k with
        | zero => exact Or.inl hk
        | succ k =>
          right
          exact ⟨k, by rw [FeatureForest.frontier_succ] at hk; exact hk⟩
    · rw [dif_neg h0]
      have hnil : s = [] := by
        cases s with
        | nil => rfl
        | cons x xs => exact absurd (Nat.succ_pos _) h0
      subst hnil
      constructor
      · intro hmem
        cases hmem
      · rintro ⟨k, hk⟩
        rw [FeatureForest.frontier_nil] at hk
        cases hk
termination_by s => FeatureNode.sizeList s
decreasing_by
  have := FeatureForest.sizeList_frontierStep s
  omega

theorem FeatureForest.enabledReachable_iff_mem_frontier (t : List (FeatureNode T))
    (n : FeatureNode T) :
    FeatureForest.EnabledReachable t n ↔
      ∃ k, n ∈ FeatureForest.frontier k (t.filter fun node => node.enabled) := by
  constructor
  · intro h
    induction h with
    | root x hmem hen =>
      exact ⟨0, List.mem_filter.mpr ⟨hmem, hen⟩⟩
    | child p c hp hmem hen ih =>
      obtain ⟨k, hk⟩ := ih
      refine ⟨k + 1, ?_⟩
      rw [FeatureForest.frontier_succ_outer]
      exact List.mem_flatMap.mpr ⟨p, hk, List.mem_filter.mpr ⟨hmem, hen⟩⟩
  · rintro ⟨k, hk⟩
    induction k generalizing n with
    | zero =>
      rw [FeatureForest.frontier_zero] at hk
      have := List.mem_filter.mp hk
      exact FeatureForest.EnabledReachable.root n this.1 this.2
    | succ k ih =>
      rw [FeatureForest.frontier_succ_outer] at hk
      obtain ⟨p, hp, hc⟩ := List.mem_flatMap.mp hk
      have hcf := List.mem_filter.mp hc
      exact FeatureForest.EnabledReachable.child p n (ih p hp) hcf.1 hcf.2

theorem FeatureNode.enabledHeightList_append (a b : List (FeatureNode T)) :
    FeatureNode.enabledHeightList (a ++ b) =
      max (FeatureNode.enabledHeightList a) (FeatureNode.enabledHeightList b) := by
  induction a with
  | nil =>
    show FeatureNode.enabledHeightList b = max 0 (FeatureNode.enabledHeightList b)
    omega
  | cons n rest ih =>
    show max n.enabledHeight (FeatureNode.enabledHeightList (rest ++ b)) =
      max (max n.enabledHeight (FeatureNode.enabledHeightList rest)) _
    rw [ih]
    omega

theorem FeatureNode.enabledHeight_le_of_mem {l : List (FeatureNode T)} {n : FeatureNode T}
    (h : n ∈ l) : n.enabledHeight ≤ FeatureNode.enabledHeightList l := by
  induction l with
  | nil => cases h
  | cons y ys ih =>
    rcases List.mem_cons.mp h with hy | hy
    · subst hy
      show _ ≤ max n.enabledHeight _
      omega
    · have := ih hy
      show _ ≤ max y.enabledHeight (FeatureNode.enabledHeightList ys)
      omega

theorem FeatureNode.enabledHeight_eq_zero {n : FeatureNode T} (h : n.enabledHeight = 0) :
    n.enabled = false := by
  cases n with
  | mk m cs e =>
    cases e with
    | false => rfl
    | true =>
      have : FeatureNode.enabledHeight (FeatureNode.mk m cs true) =
          1 + FeatureNode.enabledHeightList cs := by
        rw [FeatureNode.enabledHeight]
        rfl
      rw [this] at h
      omega

theorem FeatureNode.enabledHeight_of_enabled {n : FeatureNode T} (h : n.enabled = true) :
    n.enabledHeight = 1 + FeatureNode.enabledHeightList n.children := by
  cases n with
  | mk m cs e =>
    have he : e = true := h
    subst he
    rw [FeatureNode.enabledHeight]
    rfl

theorem FeatureNode.filter_enabled_nil_of_enabledHeightList_zero
    {l : List (FeatureNode T)} (h : FeatureNode.enabledHeightList l = 0) :
    l.filter (fun node => node.enabled) = [] := by
  rw [List.filter_eq_nil_iff]
  intro n hn
  have hle := FeatureNode.enabledHeight_le_of_mem hn
  have hz : n.enabledHeight = 0 := by omega
  rw [FeatureNode.enabledHeight_eq_zero hz]
  exact Bool.false_ne_true

theorem FeatureNode.enabledHeightList_next_lt {l : List (FeatureNode T)}
    (h : ((l.filter fun node => node.enabled).flatMap fun node => node.children) ≠ []) :
    FeatureNode.enabledHeightList
        ((l.filter fun node => node.enabled).flatMap fun node => node.children) <
      FeatureNode.enabledHeightList l := by
  induction l with
  | nil => exact absurd rfl h
  | cons n rest ih =>
    by_cases he : n.enabled
    · have hfil : (n :: rest).filter (fun node => node.enabled) =
          n :: rest.filter fun node => node.enabled := by
        rw [List.filter_cons_of_pos he]
      rw [hfil, List.flatMap_cons] at h ⊢
      rw [FeatureNode.enabledHeightList_append]
      have hn1 : n.enabledHeight = 1 + FeatureNode.enabledHeightList n.children :=
        FeatureNode.enabledHeight_of_enabled he
      have hnle : n.enabledHeight ≤ FeatureNode.enabledHeightList (n :: rest) := by
        show _ ≤ max n.enabledHeight _
        omega
      have hA : FeatureNode.enabledHeightList n.children <
          FeatureNode.enabledHeightList (n :: rest) := by omega
      by_cases hB : ((rest.filter fun node => node.enabled).flatMap
          fun node => node.children) = []
      · rw [hB]
        have : FeatureNode.enabledHeightList
            (T := T) [] = 0 := rfl
        omega
      · have hBlt := ih hB
        have hrle : FeatureNode.enabledHeightList rest ≤
            FeatureNode.enabledHeightList (n :: rest) := by
          show _ ≤ max n.enabledHeight _
          omega
        omega
    · have hfil : (n :: rest).filter (fun node => node.enabled) =
          rest.filter fun node => node.enabled := by
        rw [List.filter_cons_of_neg he]
      rw [hfil] at h ⊢
      have := ih h
      have hrle : FeatureNode.enabledHeightList rest ≤
          FeatureNode.enabledHeightList (n :: rest) := by
        show _ ≤ max n.enabledHeight _
        omega
      omega

theorem FeatureForest.computeFeaturesForLevel_empty_of_level_gt [DecidableEq T] :
    ∀ (nodes : List (FeatureNode T)) (level currentLevel : Int),
      currentLevel < level →
      (FeatureNode.enabledHeightList nodes : Int) < level - currentLevel →
      FeatureForest.computeFeaturesForLevel level nodes currentLevel = []
  | nodes, level, c, hlt, hh => by
    rw [FeatureForest.computeFeaturesForLevel.eq_def]
    have hne : ¬ (c = level) := by omega
    rw [if_neg hne]
    show (if _h : ((nodes.filter fun node => node.enabled).flatMap
          fun node => node.children).length = 0 then []
        else FeatureForest.computeFeaturesForLevel level
          ((nodes.filter fun node => node.enabled).flatMap fun node => node.children)
          (c + 1)) = []
    by_cases hlen : ((nodes.filter fun node => node.enabled).flatMap
        fun node => node.children).length = 0
    · rw [dif_pos hlen]
    · rw [dif_neg hlen]
      have hnext_ne : ((nodes.filter fun node => node.enabled).flatMap
          fun node => node.children) ≠ [] := by
        intro hnil
        apply hlen
        rw [hnil]
        rfl
      have hstep := FeatureNode.enabledHeightList_next_lt hnext_ne
      have hc1 : c + 1 < level := by
        by_contra hcon
        have hcl : c + 1 = level := by omega
        have hz : FeatureNode.enabledHeightList nodes = 0 := by omega
        have := FeatureNode.filter_enabled_nil_of_enabledHeightList_zero hz
        apply hnext_ne
        rw [this]
        rfl
      exact FeatureForest.computeFeaturesForLevel_empty_of_level_gt _ level (c + 1)
        hc1 (by omega)
termination_by nodes _ _ => FeatureNode.sizeList nodes
decreasing_by
  have h1 := FeatureNode.sizeList_le_of_sublist
    (List.filter_sublist (l := nodes) (p := fun node => node.enabled))
  have h2 := FeatureNode.sizeList_flatMap_children (nodes.filter fun node => node.enabled)
  have h3 : (nodes.filter fun node => node.enabled).length ≠ 0 := by
    intro hlen0
    apply hlen
    have hnil : nodes.filter (fun node => node.enabled) = [] := List.length_eq_zero.mp hlen0
    show ((nodes.filter fun node => node.enabled).flatMap fun node => node.children).length = 0
    rw [hnil]
    rfl
  omega

theorem FeatureForest.computeFeaturesForLevel_neg [DecidableEq T] :
    ∀ (nodes : List (FeatureNode T)) (level currentLevel : Int),
      level < 0 → 0 ≤ currentLevel →
      FeatureForest.computeFeaturesForLevel level nodes currentLevel = []
  | nodes, level, c, hneg, hc => by
    rw [FeatureForest.computeFeaturesForLevel.eq_def]
    have hne : ¬ (c = level) := by omega
    rw [if_neg hne]
    show (if _h : ((nodes.filter fun node => node.enabled).flatMap
          fun node => node.children).length = 0 then []
        else FeatureForest.computeFeaturesForLevel level
          ((nodes.filter fun node => node.enabled).flatMap fun node => node.children)
          (c + 1)) = []
    by_cases hlen : ((nodes.filter fun node => node.enabled).flatMap
        fun node => node.children).length = 0
    · rw [dif_pos hlen]
    · rw [dif_neg hlen]
      exact FeatureForest.computeFeaturesForLevel_neg _ level (c + 1) hneg (by omega)
termination_by nodes _ _ => FeatureNode.sizeList nodes
decreasing_by
  have h1 := FeatureNode.sizeList_le_of_sublist
    (List.filter_sublist (l := nodes) (p := fun node => node.enabled))
  have h2 := FeatureNode.sizeList_flatMap_children (nodes.filter fun node => node.enabled)
  have h3 : (nodes.filter fun node => node.enabled).length ≠ 0 := by
    intro hlen0
    apply hlen
    have hnil : nodes.filter (fun node => node.enabled) = [] := List.length_eq_zero.mp hlen0
    show ((nodes.filter fun node => node.enabled).flatMap fun node => node.children).length = 0
    rw [hnil]
    rfl
  omega

theorem FeatureForest.set_preserves_root_metadata [DecidableEq T]
    {t u : List (FeatureNode T)} {feature : T} {b : Bool}
    (h : FeatureForest.set t feature b = Except.ok u) :
    (u.map fun node => node.metadata) = t.map fun node => node.metadata := by
  rw [FeatureForest.set] at h
  cases hs : FeatureForest.setNodes t feature b with
  | error e => rw [hs] at h; cases h
  | ok r =>
    rw [hs] at h
    cases r with
    | none => cases h
    | some v =>
      injection h with h
      have hpure := FeatureForest.setNodes_ok_imp_pure hs
      rw [FeatureForest.setNodesPure] at hpure
      cases hf : t.find? (fun node => node.metadata.id == feature) with
      | some d =>
        rw [hf] at hpure
        injection hpure with hpure
        rw [← h, hpure]
        exact FeatureForest.map_metadata_setFirstHere t feature b
      | none =>
        rw [hf] at hpure
        rw [← h]
        exact FeatureForest.setChildrenPure_map_metadata t feature b v hpure.symm

/-- C1: the claim says constructing a `FeatureForest` throws whenever two
distinct nodes anywhere in the forest share an identifier, including cousins
in different subtrees.  The code does not: in `cousinsTopology` the two
cousins (children of the distinct roots `"A"` and `"B"`) both carry the
identifier `"C"`, so identifiers are not globally unique, yet the constructor
validation succeeds — the ancestor-id set handed down a subtree never sees
ids of other non-root subtrees, contradicting the code's own "each one must
be registered at most once" error message and the spec's stated invariant. -/
theorem C1_cousin_duplicate_accepted :
    FeatureForest.create cousinsTopology = Except.ok cousinsTopology ∧
      ¬ (FeatureNode.idsOfList cousinsTopology).Nodup :=
  ⟨rfl, by decide⟩

/-- C2: for every forest and every metadata value `m`, `getAllEnabled`
contains `m` exactly when some node carrying `m` is reachable from a root
through an unbroken chain of enabled nodes (itself included): a node's
stored flag alone is never enough when an ancestor is disabled. -/
theorem C2_getAllEnabled_iff_enabledReachable {T : Type} (t : List (FeatureNode T))
    (m : FeatureNodeMetadata T) :
    m ∈ FeatureForest.getAllEnabled t ↔
      ∃ n, FeatureForest.EnabledReachable t n ∧ n.metadata = m := by
  rw [FeatureForest.getAllEnabled, FeatureForest.mem_getAllEnabledLoop]
  constructor
  · rintro ⟨k, hk⟩
    rcases List.mem_map.mp hk with ⟨n, hn, hm⟩
    exact ⟨n, (FeatureForest.enabledReachable_iff_mem_frontier t n).mpr ⟨k, hn⟩, hm⟩
  · rintro ⟨n, her, hm⟩
    obtain ⟨k, hk⟩ := (FeatureForest.enabledReachable_iff_mem_frontier t n).mp her
    exact ⟨k, List.mem_map.mpr ⟨n, hk, hm⟩⟩

/-- C3: on a forest with globally unique identifiers (the spec's validity
invariant), disabling a feature whose stored flag is `true` and then
re-enabling it restores the forest to exactly its prior state (so every
subsequent query returns the same result as before, and no descendant needs
re-enabling). -/
theorem C3_disable_enable_roundtrip {T : Type} [DecidableEq T]
    (t : List (FeatureNode T)) (f : T) (hu : FeatureForest.uniqueIds t)
    (hget : FeatureForest.get t f = Except.ok true) :
    ∃ t1, FeatureForest.disable t f = Except.ok t1 ∧
      FeatureForest.enable t1 f = Except.ok t := by
  have hg := FeatureForest.get_eq_pure hu f
  rw [hget] at hg
  injection hg with hg
  cases hfp : FeatureForest.findNodePure t f with
  | none => rw [hfp] at hg; cases hg
  | some n =>
    rw [hfp] at hg
    have hiss := FeatureForest.setNodesPure_isSome t f false
    rw [hfp] at hiss
    cases hsp : FeatureForest.setNodesPure t f false with
    | none => rw [hsp] at hiss; simp at hiss
    | some t1 =>
      refine ⟨t1, ?_, ?_⟩
      · rw [FeatureForest.disable, FeatureForest.set,
          FeatureForest.setNodes_eq_pure hu f false, hsp]
      · have hids := FeatureForest.setNodesPure_ids hsp
        have hu1 : FeatureForest.uniqueIds t1 := by
          show (FeatureNode.idsOfList t1).Nodup
          rw [hids]
          exact hu
        rw [FeatureForest.enable, FeatureForest.set,
          FeatureForest.setNodes_eq_pure hu1 f true]
        have hcomp := @FeatureForest.setNodesPure_setNodesPure T _ t t1 f false true hsp
        have hid := @FeatureForest.setNodesPure_id_of_flag T _ t f true n hfp hg.symm
        rw [hcomp, hid]

/-- C3 witness: on the reference catalog with `DATABASE` enabled, the
round-trip `disable DATABASE; enable DATABASE` restores the forest. -/
theorem C3_witness :
    FeatureForest.uniqueIds cinnamonAfterEnableDatabase ∧
      FeatureForest.get cinnamonAfterEnableDatabase "DATABASE" = Except.ok true ∧
      ∃ t1, FeatureForest.disable cinnamonAfterEnableDatabase "DATABASE" = Except.ok t1 ∧
        FeatureForest.enable t1 "DATABASE" = Except.ok cinnamonAfterEnableDatabase :=
  ⟨by decide, rfl,
    C3_disable_enable_roundtrip cinnamonAfterEnableDatabase "DATABASE" (by decide) rfl⟩

/-- C4: for every forest, `getFeaturesForLevel 0` is exactly the metadata of
the roots in topology order, and any successful `set` (hence any
enable/disable sequence) leaves that level-0 answer unchanged. -/
theorem C4_level_zero_is_roots {T : Type} [DecidableEq T] (t : List (FeatureNode T)) :
    FeatureForest.getFeaturesForLevel t 0 = (t.map fun node => node.metadata) ∧
      ∀ (f : T) (b : Bool) (u : List (FeatureNode T)),
        FeatureForest.set t f b = Except.ok u →
        FeatureForest.getFeaturesForLevel u 0 = FeatureForest.getFeaturesForLevel t 0 := by
  constructor
  · rw [FeatureForest.getFeaturesForLevel, if_pos rfl]
  · intro f b u hset
    rw [FeatureForest.getFeaturesForLevel, if_pos rfl,
      FeatureForest.getFeaturesForLevel, if_pos rfl]
    exact FeatureForest.set_preserves_root_metadata hset

/-- C4 witness: on the reference catalog, level 0 is the five roots'
metadata, and enabling `DATABASE` leaves the level-0 answer unchanged. -/
theorem C4_witness :
    FeatureForest.getFeaturesForLevel createCinnamonFeatureForest 0 =
        (createCinnamonFeatureForest.map fun node => node.metadata) ∧
      FeatureForest.getFeaturesForLevel cinnamonAfterEnableDatabase 0 =
        FeatureForest.getFeaturesForLevel createCinnamonFeatureForest 0 :=
  ⟨(C4_level_zero_is_roots createCinnamonFeatureForest).1,
    (C4_level_zero_is_roots createCinnamonFeatureForest).2 "DATABASE" true
      cinnamonAfterEnableDatabase rfl⟩

/-- C5: the claim says `getParentOf` returns undefined for a root.  It does
not: for the root `VALIDATOR` of the reference catalog, no root's children
contain the resolved node, `topology.find` yields `undefined`, and the
unguarded `parent.metadata` access throws a `TypeError` — while the declared
return type `FeatureNodeMetadata | undefined` and the spec document the
intent of returning undefined.  The second conjunct shows the claim's other
half does hold: for a direct child of a root (`AUTHENTICATION`), the parent
root's metadata (`DATABASE`) is returned. -/
theorem C5_getParentOf_root_throws :
    FeatureForest.getParentOf createCinnamonFeatureForest "VALIDATOR" =
        Except.error "TypeError: Cannot read properties of undefined (reading 'metadata')." ∧
      FeatureForest.getParentOf createCinnamonFeatureForest "AUTHENTICATION" =
        Except.ok CinnamonProjectFeature.DATABASE :=
  ⟨rfl, rfl⟩

/-- C6: mutating an identifier that occurs nowhere in the forest fails
loudly: `set` (and its aliases `enable` and `disable`) produces an error —
the JS assignment to the `undefined` lookup result throws a `TypeError`
before any flag has been assigned, so the stored flags are untouched. -/
theorem C6_mutate_unknown_id_throws {T : Type} [DecidableEq T]
    (t : List (FeatureNode T)) (f : T) (b : Bool)
    (h : f ∉ FeatureNode.idsOfList t) :
    (∃ e, FeatureForest.set t f b = Except.error e) ∧
      (∃ e, FeatureForest.enable t f = Except.error e) ∧
      ∃ e, FeatureForest.disable t f = Except.error e := by
  have key : ∀ b' : Bool, ∃ e, FeatureForest.set t f b' = Except.error e := by
    intro b'
    rw [FeatureForest.set]
    cases hs : FeatureForest.setNodes t f b' with
    | error e => exact ⟨e, rfl⟩
    | ok r =>
      have hp := FeatureForest.setNodes_ok_imp_pure hs
      rw [FeatureForest.setNodesPure_none h] at hp
      subst hp
      exact ⟨_, rfl⟩
  exact ⟨key b, by rw [FeatureForest.enable]; exact key true,
    by rw [FeatureForest.disable]; exact key false⟩

/-- C6 witness: mutating the absent identifier `"NOPE"` on the reference
catalog errors. -/
theorem C6_witness :
    ("NOPE" ∉ FeatureNode.idsOfList createCinnamonFeatureForest) ∧
      ∃ e, FeatureForest.set createCinnamonFeatureForest "NOPE" true = Except.error e :=
  ⟨by decide,
    (C6_mutate_unknown_id_throws createCinnamonFeatureForest "NOPE" true (by decide)).1⟩

/-- C7: on a forest with globally unique identifiers (the spec's validity
invariant), `get` never throws: it returns the stored flag of the first node
found in search order, and `false` when the identifier occurs nowhere. -/
theorem C7_get_never_throws {T : Type} [DecidableEq T]
    (t : List (FeatureNode T)) (f : T) (hu : FeatureForest.uniqueIds t) :
    FeatureForest.get t f = Except.ok
        (match FeatureForest.findNodePure t f with
          | some node => node.enabled
          | none => false) ∧
      (f ∉ FeatureNode.idsOfList t → FeatureForest.get t f = Except.ok false) := by
  refine ⟨FeatureForest.get_eq_pure hu f, ?_⟩
  intro habs
  rw [FeatureForest.get_eq_pure hu f, FeatureForest.findNodePure_none habs]

/-- C7 witness: on the reference catalog `get` answers `ok false` both for a
present-but-disabled feature and for an absent identifier. -/
theorem C7_witness :
    FeatureForest.uniqueIds createCinnamonFeatureForest ∧
      FeatureForest.get createCinnamonFeatureForest "NOPE" = Except.ok false :=
  ⟨by decide,
    (C7_get_never_throws createCinnamonFeatureForest "NOPE" (by decide)).2 (by decide)⟩

/-- C8: for every forest, any level strictly greater than the length of the
longest chain of consecutively enabled nodes (hence in particular any level
beyond the forest's depth) yields an empty result; the walk is total and
short-circuits when the candidate set empties. -/
theorem C8_level_beyond_enabled_depth_empty {T : Type} [DecidableEq T]
    (t : List (FeatureNode T)) (level : Int)
    (h : (FeatureNode.enabledHeightList t : Int) < level) :
    FeatureForest.getFeaturesForLevel t level = [] := by
  rw [FeatureForest.getFeaturesForLevel]
  have h0 : ¬ (level = 0) := by omega
  rw [if_neg h0]
  exact FeatureForest.computeFeaturesForLevel_empty_of_level_gt t level 0
    (by omega) (by omega)

/-- C8 witness: on the all-disabled reference catalog (enabled depth 0),
level 100 yields the empty list. -/
theorem C8_witness :
    (FeatureNode.enabledHeightList createCinnamonFeatureForest : Int) < 100 ∧
      FeatureForest.getFeaturesForLevel createCinnamonFeatureForest 100 = [] :=
  ⟨by decide,
    C8_level_beyond_enabled_depth_empty createCinnamonFeatureForest 100 (by decide)⟩

/-- C9: the freshly constructed reference catalog validates, has exactly the
five roots at level 0, an empty level 1 (nothing enabled yet), and after the
single call `enable DATABASE`, level 1 is exactly the metadata of
`AUTHENTICATION` and `ASSET` (length 2), in topology order. -/
theorem C9_reference_catalog_scenario :
    FeatureForest.create createCinnamonFeatureForest =
        Except.ok createCinnamonFeatureForest ∧
      (FeatureForest.getFeaturesForLevel createCinnamonFeatureForest 0).length = 5 ∧
      FeatureForest.getFeaturesForLevel createCinnamonFeatureForest 1 = [] ∧
      FeatureForest.enable createCinnamonFeatureForest "DATABASE" =
        Except.ok cinnamonAfterEnableDatabase ∧
      FeatureForest.getFeaturesForLevel cinnamonAfterEnableDatabase 1 =
        [CinnamonProjectFeature.AUTHENTICATION, CinnamonProjectFeature.ASSET] := by
  refine ⟨rfl, rfl, ?_, rfl, ?_⟩
  · rw [FeatureForest.getFeaturesForLevel]
    norm_num
    rw [FeatureForest.computeFeaturesForLevel.eq_def]
    norm_num [createCinnamonFeatureForest, FeatureNode.enabled, FeatureNode.children]
  · rw [FeatureForest.getFeaturesForLevel]
    norm_num
    rw [FeatureForest.computeFeaturesForLevel.eq_def]
    norm_num [cinnamonAfterEnableDatabase, FeatureNode.enabled, FeatureNode.children]
    rw [FeatureForest.computeFeaturesForLevel.eq_def]
    norm_num [FeatureNode.metadata]

/-- C10: for every forest and every negative level, the level walk
terminates (it is a total function of the model) and returns the empty
list: the target level is never reached and the frontier empties. -/
theorem C10_negative_level_empty {T : Type} [DecidableEq T]
    (t : List (FeatureNode T)) (level : Int) (h : level < 0) :
    FeatureForest.getFeaturesForLevel t level = [] := by
  rw [FeatureForest.getFeaturesForLevel]
  have h0 : ¬ (level = 0) := by omega
  rw [if_neg h0]
  exact FeatureForest.computeFeaturesForLevel_neg t level 0 h (by omega)

/-- C10 witness: level `-1` on the reference catalog yields the empty
list. -/
theorem C10_witness :
    (-1 : Int) < 0 ∧
      FeatureForest.getFeaturesForLevel createCinnamonFeatureForest (-1) = [] :=
  ⟨by norm_num,
    C10_negative_level_empty createCinnamonFeatureForest (-1) (by norm_num)⟩
